import Mathlib

/-!
# Verification of the MENACE tic-tac-toe learner (Go backend)

Shallow embedding of `backend/go/pkg/board` (packages `board` and `menace`),
`backend/go/pkg/game` and the relevant parts of `backend/go/internal/api`.

A board state is the 9-character string of the Go code, modelled as a
function `Fin 9 → Char` (the Go type `Board` carries the invariant
`len(state) == 9`, which the function type makes intrinsic); the
lexicographic comparison of two such strings is modelled on their
character lists.  Go `int` values are modelled as `Int` (bead counts,
move positions including the `-1` sentinel) or `Nat` (counters).
-/

namespace MenaceGo

/-- A 9-cell tic-tac-toe board state, cell `i` holding `'X'`, `'O'` or `'_'`.
Mirrors the Go `board.Board` 9-character `state` string. -/
abbrev BoardState := Fin 9 → Char

/-- The well-formedness check of `board.New`: every cell is `'X'`, `'O'` or `'_'`.
(The length-9 check of `board.New` is intrinsic to `BoardState`.) -/
def ValidState (s : BoardState) : Prop :=
  ∀ i : Fin 9, s i = 'X' ∨ s i = 'O' ∨ s i = '_'

instance (s : BoardState) : Decidable (ValidState s) := by
  unfold ValidState; infer_instance

/-- The 8 symmetry permutations of the Go `board.Transformations` table, in
the same order: identity, rotate 90°, rotate 180°, rotate 270°, flip
horizontal, flip vertical, flip diagonal, flip anti-diagonal. -/
def Transformations : Fin 8 → Fin 9 → Fin 9 :=
  ![![0, 1, 2, 3, 4, 5, 6, 7, 8],
    ![6, 3, 0, 7, 4, 1, 8, 5, 2],
    ![8, 7, 6, 5, 4, 3, 2, 1, 0],
    ![2, 5, 8, 1, 4, 7, 0, 3, 6],
    ![2, 1, 0, 5, 4, 3, 8, 7, 6],
    ![6, 7, 8, 3, 4, 5, 0, 1, 2],
    ![0, 3, 6, 1, 4, 7, 2, 5, 8],
    ![8, 5, 2, 7, 4, 1, 6, 3, 0]]

/-- Go `board.applyTransform`: `result[newPos] = state[transform[newPos]]`,
i.e. the transformed state is the original read through the table. -/
def applyTransform (s : BoardState) (transform : Fin 9 → Fin 9) : BoardState :=
  fun newPos => s (transform newPos)

/-- The 9-character string of a board state, as a character list
(row-major cells 0–8, exactly the Go `Board.state` string). -/
def stateList (s : BoardState) : List Char := (List.finRange 9).map s

/-- Go string comparison `a < b` restricted to the ASCII strings used here:
byte-wise lexicographic order, a strict prefix being smaller.
`Char.toNat` of the ASCII characters `'X','O','_'` is their byte value. -/
def strLt : List Char → List Char → Bool
  | _, [] => false
  | [], _ :: _ => true
  | a :: as, b :: bs =>
    if a.toNat < b.toNat then true
    else if b.toNat < a.toNat then false
    else strLt as bs

/-- The candidate `variants[i].state` built by `Board.Normalize`:
the board transformed by table entry `t`, as a string. -/
def variantStr (s : BoardState) (t : Fin 8) : List Char :=
  stateList (applyTransform s (Transformations t))

/-- One comparison step of the selection performed by `Board.Normalize`.
`sort.Slice` on the 8 variants with `variants[i].state < variants[j].state`
runs Go's insertion sort (the slice is shorter than 12 elements), which is
stable, so the element ending up first is the earliest index attaining the
lexicographically smallest state; that selection is modelled as a left fold
keeping the earlier index on ties. -/
def pickStep (s : BoardState) (best u : Fin 8) : Fin 8 :=
  if strLt (variantStr s u) (variantStr s best) then u else best

/-- The transformation index returned by `Board.Normalize`: earliest index
among the 8 whose transformed state is lexicographically smallest. -/
def pickIdx (s : BoardState) : Fin 8 :=
  ([1, 2, 3, 4, 5, 6, 7] : List (Fin 8)).foldl (pickStep s) 0

/-- Go `Board.Normalize`: the lexicographically smallest transformed state
together with the index of the transformation that produced it. -/
def Normalize (s : BoardState) : List Char × Fin 8 :=
  (variantStr s (pickIdx s), pickIdx s)

/-- Go `board.TransformPosition`: `Transformations[transformIdx][position]`. -/
def TransformPosition (position : Fin 9) (transformIdx : Fin 8) : Fin 9 :=
  Transformations transformIdx position

/-- Go `board.inverseTransform` (= `InverseTransformPosition`): scan
`origPos = 0,…,8` and return the first with
`transform[origPos] == position`; if none matches (possible when the
position is the `-1` sentinel of `DrawBead`), return `position` unchanged.
Positions are Go `int`s here, hence `Int`. -/
def InverseTransformPosition (position : Int) (transformIdx : Fin 8) : Int :=
  match (List.finRange 9).find?
      (fun origPos => ((Transformations transformIdx origPos : Fin 9) : Nat) = position) with
  | some origPos => (origPos : Nat)
  | none => position

/-- Go `Board.GetEmptyPositions`: the positions holding `'_'`, ascending. -/
def GetEmptyPositions (s : BoardState) : List (Fin 9) :=
  (List.finRange 9).filter (fun i => s i = '_')

/-- The empty (legal) positions of a state string, used to state the spec's
"moves legal in that canonical state" for the canonical string returned by
`Normalize`. -/
def emptiesOfString (l : List Char) : List Int :=
  ((List.range l.length).filter (fun i => l.getD i ' ' = '_')).map (fun n => (n : Int))

/-- Composition table of the 8 transformations under `applyTransform`:
`Transformations (mulIdx t u) i = Transformations t (Transformations u i)`
(proved below by finite check), so successively applying table entries `t`
then `u` equals applying the single entry `mulIdx t u`. -/
def mulIdx : Fin 8 → Fin 8 → Fin 8 :=
  ![![0, 1, 2, 3, 4, 5, 6, 7],
    ![1, 2, 3, 0, 6, 7, 5, 4],
    ![2, 3, 0, 1, 5, 4, 7, 6],
    ![3, 0, 1, 2, 7, 6, 4, 5],
    ![4, 7, 5, 6, 0, 2, 3, 1],
    ![5, 6, 4, 7, 2, 0, 1, 3],
    ![6, 4, 7, 5, 1, 3, 0, 2],
    ![7, 5, 6, 4, 3, 1, 2, 0]]

/-- Go `board.Player` (`"X"`, `"O"`, `"_"` = `PlayerNone`, here `N`). -/
inductive Player where
  | X
  | O
  | N
deriving DecidableEq

/-- Go `Player.Other`: `O` for `X`, otherwise `X`. -/
def Player.other (p : Player) : Player :=
  if p = .X then .O else .X

/-- The single character of the Go player string (`player[0]`). -/
def Player.char : Player → Char
  | .X => 'X'
  | .O => 'O'
  | .N => '_'

/-- The player named by a board character (Go `Player(string(a))`). -/
def charPlayer (c : Char) : Player :=
  if c = 'X' then .X else if c = 'O' then .O else .N

/-- Go `board.GameResult`. -/
inductive GameResult where
  | win
  | loss
  | draw
  | inProgress
deriving DecidableEq

/-- Go `board.WinningLines`: the 8 three-cell lines. -/
def WinningLines : List (Fin 9 × Fin 9 × Fin 9) :=
  [(0, 1, 2), (3, 4, 5), (6, 7, 8),
   (0, 3, 6), (1, 4, 7), (2, 5, 8),
   (0, 4, 8), (2, 4, 6)]

/-- Go `Board.CheckWinner`: the player of the first uniformly-marked
non-empty line, else `PlayerNone`. -/
def CheckWinner (s : BoardState) : Player :=
  match WinningLines.find? (fun l =>
      s l.1 != '_' && s l.1 == s l.2.1 && s l.2.1 == s l.2.2) with
  | some l => charPlayer (s l.1)
  | none => .N

/-- Go `Board.IsFull`: no `'_'` in the state string. -/
def IsFull (s : BoardState) : Bool :=
  !((stateList s).contains '_')

/-- Go `Board.IsGameOver`: a winner exists or the board is full. -/
def IsGameOver (s : BoardState) : Bool :=
  (CheckWinner s != .N) || IsFull s

/-- Go `Board.GetResult`: result from `player`'s perspective. -/
def GetResult (s : BoardState) (player : Player) : GameResult :=
  let winner := CheckWinner s
  if winner = .N then
    if IsFull s then .draw else .inProgress
  else if winner = player then .win
  else .loss

/-- Go `Board.MakeMove`: range check, occupancy check, then a new board
with the player's mark placed (the receiver is unchanged). Positions are
Go `int`s, hence `Int`. -/
def MakeMove (s : BoardState) (position : Int) (player : Player) :
    Except String BoardState :=
  if h : position < 0 ∨ 8 < position then .error "position must be 0-8"
  else
    let p : Fin 9 := ⟨position.toNat, by omega⟩
    if s p ≠ '_' then .error "position is already occupied"
    else .ok (Function.update s p player.char)

/-- Go `menace.Matchbox`.  `Beads` is a Go `map[int]int`; it is modelled as
an association list carrying the map's (randomized) iteration order
explicitly, so that behaviour depending on that order is visible.  Keys
are the move positions, values the bead counts. -/
structure Matchbox where
  boardState : List Char
  beads : List (Int × Int)
  timesUsed : Nat
deriving DecidableEq

/-- Go `menace.NewMatchbox`: one entry of `initialBeads` per valid move.
(A duplicate in `validMoves` overwrites with the same value in Go; the
association list then holds a shadowed duplicate with the same value,
indistinguishable through `lookup`.) -/
def NewMatchbox (boardState : List Char) (validMoves : List Int)
    (initialBeads : Int) : Matchbox :=
  { boardState := boardState
    beads := validMoves.map (fun pos => (pos, initialBeads))
    timesUsed := 0 }

/-- Go `Matchbox.DrawBead`: expand each entry to `count` copies of its
position, in the map's iteration order (the list order here), and pick the
element indexed by the random draw `r` (`rand.Intn` of the length, so
`r` is in range in every actual call); `-1` when there is nothing to draw. -/
def DrawBead (m : Matchbox) (r : Nat) : Int :=
  if m.beads.isEmpty then -1
  else
    let weightedPositions := m.beads.flatMap (fun kv => List.replicate kv.2.toNat kv.1)
    if weightedPositions.isEmpty then -1
    else weightedPositions.getD r (-1)

/-- Go `Matchbox.AddBeads`: add `count` to the entry at `position` if one
exists; otherwise do nothing. -/
def AddBeads (m : Matchbox) (position count : Int) : Matchbox :=
  { m with beads := m.beads.map (fun kv =>
      if kv.1 = position then (kv.1, kv.2 + count) else kv) }

/-- Go `Matchbox.RemoveBeads`: subtract `count` at `position` if the entry
exists, clamping below at `minBeads`; otherwise do nothing. -/
def RemoveBeads (m : Matchbox) (position count minBeads : Int) : Matchbox :=
  { m with beads := m.beads.map (fun kv =>
      if kv.1 = position then
        (kv.1, if kv.2 - count < minBeads then minBeads else kv.2 - count)
      else kv) }

/-- Go `Matchbox.GetTotalBeads`. -/
def GetTotalBeads (m : Matchbox) : Int :=
  (m.beads.map (fun kv => kv.2)).sum

/-- Go `menace.MoveRecord`: one traced move (normalized state, normalized
position, transformation index). -/
structure MoveRecord where
  boardState : List Char
  position : Int
  transformIdx : Fin 8
deriving DecidableEq

/-- Go `menace.HistorySnapshot`.  `WinRate` is a `float64` in Go; it is
modelled as the exact rational — no claim depends on its rounding. -/
structure HistorySnapshot where
  games : Nat
  totalBeads : Int
  matchboxCount : Nat
  wins : Nat
  losses : Nat
  draws : Nat
  winRate : ℚ
deriving DecidableEq

/-- Go `menace.Menace`.  `Matchboxes` is a Go `map[string]*Matchbox`,
modelled as an association list keyed by the normalized state string; the
`sync.RWMutex` serializes the operations, which are therefore modelled as
sequential state transformers. -/
structure Menace where
  matchboxes : List (List Char × Matchbox)
  player : Player
  moveHistory : List MoveRecord
  history : List HistorySnapshot
  initialBeads : Int
  winReward : Int
  drawReward : Int
  lossPenalty : Int
  minBeads : Int
  gamesPlayed : Nat
  wins : Nat
  losses : Nat
  draws : Nat
deriving DecidableEq

/-- Go `menace.NewMenace` with its default learning parameters. -/
def NewMenace (player : Player) : Menace :=
  { matchboxes := []
    player := player
    moveHistory := []
    history := []
    initialBeads := 3
    winReward := 3
    drawReward := 1
    lossPenalty := 1
    minBeads := 1
    gamesPlayed := 0
    wins := 0
    losses := 0
    draws := 0 }

/-- Update the matchbox stored under `state` (Go mutates it through the
map's pointer; here the entry is rewritten in place). -/
def updateMatchbox (boxes : List (List Char × Matchbox)) (state : List Char)
    (f : Matchbox → Matchbox) : List (List Char × Matchbox) :=
  boxes.map (fun kv => if kv.1 = state then (kv.1, f kv.2) else kv)

/-- Go `Menace.GetOrCreateMatchbox`: return the existing matchbox for the
normalized state, or create one with the configured initial beads.  (Map
insertion order is unobservable except through iteration; the new entry is
consed on.) -/
def GetOrCreateMatchbox (m : Menace) (normalizedState : List Char)
    (validMoves : List Int) : Menace × Matchbox :=
  match m.matchboxes.lookup normalizedState with
  | some mb => (m, mb)
  | none =>
    let mb := NewMatchbox normalizedState validMoves m.initialBeads
    ({ m with matchboxes := (normalizedState, mb) :: m.matchboxes }, mb)

/-- Go `Menace.GetMove`: normalize, transform the original board's empty
positions via `TransformPosition`, get-or-create the matchbox, bump its
usage counter, draw a bead (`r` standing for the `rand.Intn` draw), map
the drawn position back through `InverseTransformPosition`, and record
the move.  Returns the updated agent and the concrete position. -/
def GetMove (m : Menace) (b : BoardState) (r : Nat) : Menace × Int :=
  let normalized := Normalize b
  let originalMoves := GetEmptyPositions b
  let normalizedMoves := originalMoves.map
    (fun pos => (((TransformPosition pos normalized.2 : Fin 9) : Nat) : Int))
  let created := GetOrCreateMatchbox m normalized.1 normalizedMoves
  let m2 := { created.1 with
    matchboxes := updateMatchbox created.1.matchboxes normalized.1
      (fun mb => { mb with timesUsed := mb.timesUsed + 1 }) }
  let normalizedPos := DrawBead created.2 r
  let originalPos := InverseTransformPosition normalizedPos normalized.2
  let m3 := { m2 with moveHistory := m2.moveHistory ++
    [{ boardState := normalized.1, position := normalizedPos,
       transformIdx := normalized.2 }] }
  (m3, originalPos)

/-- The per-trace-entry update of `Menace.Learn`: a missing matchbox is
skipped (`continue`), otherwise the stored matchbox is rewarded or
penalized according to the result. -/
def applyTraced (result : GameResult) (winReward drawReward lossPenalty minBeads : Int)
    (boxes : List (List Char × Matchbox)) (move : MoveRecord) :
    List (List Char × Matchbox) :=
  match boxes.lookup move.boardState with
  | none => boxes
  | some _ =>
    updateMatchbox boxes move.boardState (fun mb =>
      match result with
      | .win => AddBeads mb move.position winReward
      | .draw => AddBeads mb move.position drawReward
      | .loss => RemoveBeads mb move.position lossPenalty minBeads
      | .inProgress => mb)

/-- Go `Menace.getTotalBeadsUnsafe`: total beads over all matchboxes. -/
def totalBeadsAll (m : Menace) : Int :=
  (m.matchboxes.map (fun kv => GetTotalBeads kv.2)).sum

/-- Go `Menace.recordHistorySnapshot`: append a snapshot every 10 games. -/
def recordHistorySnapshot (m : Menace) : Menace :=
  if m.gamesPlayed % 10 ≠ 0 then m
  else
    let winRate : ℚ := if 0 < m.gamesPlayed then (m.wins : ℚ) / (m.gamesPlayed : ℚ) else 0
    { m with history := m.history ++
      [{ games := m.gamesPlayed
         totalBeads := totalBeadsAll m
         matchboxCount := m.matchboxes.length
         wins := m.wins
         losses := m.losses
         draws := m.draws
         winRate := winRate }] }

/-- Go `Menace.Learn`: bump the game counter and the counter of the
result, apply the reward/penalty for every traced move (skipping missing
matchboxes), clear the move history, then maybe record a snapshot. -/
def Learn (result : GameResult) (m : Menace) : Menace :=
  recordHistorySnapshot
    { m with
      gamesPlayed := m.gamesPlayed + 1
      wins := if result = .win then m.wins + 1 else m.wins
      losses := if result = .loss then m.losses + 1 else m.losses
      draws := if result = .draw then m.draws + 1 else m.draws
      matchboxes := m.moveHistory.foldl
        (applyTraced result m.winReward m.drawReward m.lossPenalty m.minBeads)
        m.matchboxes
      moveHistory := [] }

/-- Go `Menace.StartNewGame`: clear the move history. -/
def StartNewGame (m : Menace) : Menace :=
  { m with moveHistory := [] }

/-- The bead count recorded for move `mv` in the matchbox of state `s`
(the read path of `Menace.GetMatchboxData` restricted to one move). -/
def beadCount (m : Menace) (s : List Char) (mv : Int) : Option Int :=
  (m.matchboxes.lookup s).bind (fun mb => mb.beads.lookup mv)

/-- One reward/penalty operation on a matchbox, for stating the floor
invariant over arbitrary operation sequences (claim C6). -/
inductive BeadOp where
  | add (position count : Int)
  | remove (position count : Int)
deriving DecidableEq

/-- The delta carried by a bead operation. -/
def BeadOp.count : BeadOp → Int
  | .add _ c => c
  | .remove _ c => c

/-- Apply one bead operation with the configured floor. -/
def applyBeadOp (minBeads : Int) (mb : Matchbox) : BeadOp → Matchbox
  | .add pos c => AddBeads mb pos c
  | .remove pos c => RemoveBeads mb pos c minBeads

/-- Apply a sequence of bead operations. -/
def applyBeadOps (minBeads : Int) (mb : Matchbox) (ops : List BeadOp) : Matchbox :=
  ops.foldl (applyBeadOp minBeads) mb

/-- One move of the Go `game.Move` log (the wall-clock timestamp carries
no information for any claim and is omitted). -/
structure GameMove where
  player : Player
  position : Int
  boardAfter : List Char
deriving DecidableEq

/-- Go `game.Game`: one session (id and creation time omitted; the shared
`Menace` agent is threaded separately instead of being stored as a
pointer). -/
structure Game where
  board : BoardState
  menacePlayer : Player
  currentTurn : Player
  moves : List GameMove
  result : GameResult

/-- Go `Game.IsOver`. -/
def Game.IsOver (g : Game) : Bool :=
  IsGameOver g.board

/-- Go `Game.IsMenaceTurn`. -/
def Game.IsMenaceTurn (g : Game) : Bool :=
  g.currentTurn == g.menacePlayer && !g.IsOver

/-- Go `Game.IsOpponentTurn`. -/
def Game.IsOpponentTurn (g : Game) : Bool :=
  g.currentTurn != g.menacePlayer && !g.IsOver

/-- Go `Game.GetResult`: from MENACE's perspective. -/
def Game.GetResult (g : Game) : GameResult :=
  MenaceGo.GetResult g.board g.menacePlayer

/-- Go `Game.GetValidMoves`. -/
def Game.GetValidMoves (g : Game) : List Int :=
  if g.IsOver then []
  else (GetEmptyPositions g.board).map (fun p => ((p : Nat) : Int))

/-- Go `Game.OpponentMove`: on a finished game or out of turn it returns
`nil` (no error) without touching the session; otherwise it applies the
move, logs it, flips the turn, and records the result if the game ended. -/
def OpponentMove (g : Game) (position : Int) : Game × Option String :=
  if g.IsOver then (g, none)
  else if !g.IsOpponentTurn then (g, none)
  else
    let opponentPlayer := g.menacePlayer.other
    match MakeMove g.board position opponentPlayer with
    | .error e => (g, some e)
    | .ok newBoard =>
      let g1 := { g with
        board := newBoard
        moves := g.moves ++ [({ player := opponentPlayer, position := position,
                                boardAfter := stateList newBoard } : GameMove)]
        currentTurn := g.currentTurn.other }
      let g2 : Game := if g1.IsOver then { g1 with result := g1.GetResult } else g1
      (g2, none)

/-- Go `Game.MenaceMove`: delegate to `Menace.GetMove` (`r` is the random
draw it consumes), then apply the returned position like an opponent
move.  Returns the updated agent, session, chosen position (`-1` when
nothing was played) and the error of a failed `MakeMove`. -/
def MenaceMove (m : Menace) (g : Game) (r : Nat) :
    Menace × Game × Int × Option String :=
  if g.IsOver then (m, g, -1, none)
  else if !g.IsMenaceTurn then (m, g, -1, none)
  else
    let chosen := GetMove m g.board r
    match MakeMove g.board chosen.2 g.menacePlayer with
    | .error e => (chosen.1, g, -1, some e)
    | .ok newBoard =>
      let g1 := { g with
        board := newBoard
        moves := g.moves ++ [({ player := g.menacePlayer, position := chosen.2,
                                boardAfter := stateList newBoard } : GameMove)]
        currentTurn := g.currentTurn.other }
      let g2 : Game := if g1.IsOver then { g1 with result := g1.GetResult } else g1
      (chosen.1, g2, chosen.2, none)

/-- Go `GameManager.FinishGame` for the session holding `g` (the map
lookup of the single session always succeeds): apply learning once if the
game is over, otherwise do nothing. -/
def FinishGame (m : Menace) (g : Game) : Menace :=
  if g.IsOver then Learn g.GetResult m else m

/-- The `POST /api/game/:id/move` handler (`Handler.MakeMove`) for one
session, with the agent state threaded explicitly: reject finished
sessions, out-of-turn and invalid positions with an error; otherwise
apply the opponent move, let MENACE respond when the game continues
(consuming the draw `r`), and, if the game ended, trigger learning via
`FinishGame`. -/
def handlerMakeMove (st : Menace × Game) (position : Int) (r : Nat) :
    (Menace × Game) × Option String :=
  let g := st.2
  if g.IsOver then (st, some "Game is already over")
  else if !g.IsOpponentTurn then (st, some "not your turn - waiting for MENACE")
  else if !(g.GetValidMoves.contains position) then
    (st, some "Invalid move: position is not available")
  else
    match OpponentMove g position with
    | (g1, some e) => ((st.1, g1), some e)
    | (g1, none) =>
      let stepped :=
        if !g1.IsOver && g1.IsMenaceTurn then
          let t := MenaceMove st.1 g1 r
          (t.1, t.2.1)
        else (st.1, g1)
      let m3 := if stepped.2.IsOver then FinishGame stepped.1 stepped.2 else stepped.1
      ((m3, stepped.2), none)

/-- One episode of the schema of the monotonic-reinforcement property:
the trace credits exactly the pair (`s`, `mv`) once (recorded with
transformation index `t`), and the game ends in a win, so `Learn` is
applied with `ResultWin` to that single-entry move history. -/
def episodeWin (s : List Char) (mv : Int) (t : Fin 8) (m : Menace) : Menace :=
  Learn .win { m with moveHistory := [{ boardState := s, position := mv, transformIdx := t }] }

/-- A board state from an explicit 9-character list (test fixture helper,
mirroring `board.New` on a literal string). -/
def ofList (l : List Char) : BoardState :=
  fun i => l.getD i ' '

/-- The board `"__X______"` (X has played cell 2): concrete input for the
matchbox-domain analysis of `GetMove`. -/
def bC1 : BoardState :=
  ofList ['_', '_', 'X', '_', '_', '_', '_', '_', '_']

/-- Beads `{0 ↦ 1, 1 ↦ 1}` enumerated in the iteration order `0,1`. -/
def mbOrderA : Matchbox :=
  { boardState := ['X', '_', '_'], beads := [(0, 1), (1, 1)], timesUsed := 0 }

/-- The same bead map enumerated in the iteration order `1,0`. -/
def mbOrderB : Matchbox :=
  { boardState := ['X', '_', '_'], beads := [(1, 1), (0, 1)], timesUsed := 0 }

/-- The canonical state string of the empty board (fixture for the
reinforcement witness). -/
def stW : List Char := ['_', '_', '_', '_', '_', '_', '_', '_', '_']

/-- An agent owning a single fresh matchbox for `stW` whose move 4 holds
the default 3 initial beads (fixture for the reinforcement witness). -/
def mW : Menace :=
  { NewMenace Player.X with matchboxes := [(stW, NewMatchbox stW [4] 3)] }

/-- A finished session: X completed the top row, MENACE plays O and has
lost; it is nominally O's turn (fixture for the session-termination
claim). -/
def gFinished : Game :=
  { board := ofList ['X', 'X', 'X', 'O', 'O', '_', '_', '_', '_']
    menacePlayer := Player.O
    currentTurn := Player.O
    moves := []
    result := GameResult.loss }

/-- A near-terminal session: X (the opponent) completes the top row by
playing cell 2; MENACE plays O (fixture for the exactly-once-learning
part of the session-termination claim). -/
def gNearEnd : Game :=
  { board := ofList ['X', 'X', '_', 'O', 'O', '_', '_', '_', '_']
    menacePlayer := Player.O
    currentTurn := Player.X
    moves := []
    result := GameResult.inProgress }

end MenaceGo

namespace MenaceGo

/-! ## Order facts about the string comparison -/

theorem char_toNat_inj {a b : Char} (h : a.toNat = b.toNat) : a = b :=
  Char.eq_of_val_eq (UInt32.eq_of_toBitVec_eq (BitVec.eq_of_toNat_eq h))

theorem strLt_irrefl (l : List Char) : strLt l l = false := by
  induction l with
  | nil => rfl
  | cons a as ih => simp [strLt, ih]

theorem strLt_trans :
    ∀ {a b c : List Char}, strLt a b = true → strLt b c = true → strLt a c = true
  | a, b, [], _, h2 => by cases b <;> simp [strLt] at h2
  | [], _, _ :: _, _, _ => rfl
  | _ :: _, [], _ :: _, h1, _ => by simp [strLt] at h1
  | a :: as, b :: bs, c :: cs, h1, h2 => by
    simp only [strLt] at h1 h2 ⊢
    by_cases hab : a.toNat < b.toNat
    · by_cases hbc : b.toNat < c.toNat
      · simp [Nat.lt_trans hab hbc]
      · by_cases hcb : c.toNat < b.toNat
        · simp [hbc, hcb] at h2
        · have hbceq : b.toNat = c.toNat := Nat.le_antisymm (Nat.not_lt.mp hcb) (Nat.not_lt.mp hbc)
          simp [hbceq] at hab
          simp [hab]
    · by_cases hba : b.toNat < a.toNat
      · simp [hab, hba] at h1
      · have habeq : a.toNat = b.toNat := Nat.le_antisymm (Nat.not_lt.mp hba) (Nat.not_lt.mp hab)
        by_cases hbc : b.toNat < c.toNat
        · rw [← habeq] at hbc
          simp [hbc]
        · by_cases hcb : c.toNat < b.toNat
          · simp [hbc, hcb] at h2
          · have hbceq : b.toNat = c.toNat :=
              Nat.le_antisymm (Nat.not_lt.mp hcb) (Nat.not_lt.mp hbc)
            simp [hab, hba, habeq, hbceq] at h1 h2 ⊢
            exact strLt_trans h1 h2

theorem strLt_eq_of_not :
    ∀ {a b : List Char}, strLt a b = false → strLt b a = false → a = b
  | [], [], _, _ => rfl
  | [], _ :: _, h1, _ => by simp [strLt] at h1
  | _ :: _, [], _, h2 => by simp [strLt] at h2
  | a :: as, b :: bs, h1, h2 => by
    simp only [strLt] at h1 h2
    by_cases hab : a.toNat < b.toNat
    · simp [hab] at h1
    · by_cases hba : b.toNat < a.toNat
      · simp [hba] at h2
      · have habeq : a = b :=
          char_toNat_inj (Nat.le_antisymm (Nat.not_lt.mp hba) (Nat.not_lt.mp hab))
        simp [hab, hba] at h1 h2
        rw [habeq, strLt_eq_of_not h1 h2]

/-! ## The argmin selection of `Normalize` -/

theorem pickFold_spec (s : BoardState) :
    ∀ (l : List (Fin 8)) (b : Fin 8),
      (∀ w, w < b → strLt (variantStr s b) (variantStr s w) = true) →
      (∀ w, b < w → w ∉ l → strLt (variantStr s w) (variantStr s b) = false) →
      (∀ u ∈ l, b < u) →
      l.Pairwise (· < ·) →
      (∀ w, w < l.foldl (pickStep s) b →
          strLt (variantStr s (l.foldl (pickStep s) b)) (variantStr s w) = true) ∧
      (∀ w, l.foldl (pickStep s) b < w →
          strLt (variantStr s w) (variantStr s (l.foldl (pickStep s) b)) = false)
  | [], b, H1, H2, _, _ => by
    refine ⟨fun w hw => H1 w hw, fun w hw => H2 w hw (List.not_mem_nil w)⟩
  | u :: l', b, H1, H2, H3, H4 => by
    have hbu : b < u := H3 u (List.mem_cons_self u l')
    have hpw := List.pairwise_cons.mp H4
    rw [List.foldl_cons]
    by_cases hc : strLt (variantStr s u) (variantStr s b) = true
    · have step : pickStep s b u = u := by simp [pickStep, hc]
      rw [step]
      apply pickFold_spec s l' u
      · intro w hwu
        rcases lt_trichotomy w b with hwb | hwb | hwb
        · exact strLt_trans hc (H1 w hwb)
        · subst hwb; exact hc
        · have hwl : w ∉ u :: l' := by
            intro hmem
            rcases List.mem_cons.mp hmem with h | h
            · subst h; exact lt_irrefl _ hwu
            · exact absurd hwu (not_lt.mpr (le_of_lt (hpw.1 w h)))
          have h2 := H2 w hwb hwl
          cases hq : strLt (variantStr s b) (variantStr s w) with
          | false =>
            have heq := strLt_eq_of_not h2 hq
            rw [heq]
            exact hc
          | true => exact strLt_trans hc hq
      · intro w huw hwl'
        have hbw : b < w := lt_trans hbu huw
        have hwl : w ∉ u :: l' := by
          intro hmem
          rcases List.mem_cons.mp hmem with h | h
          · subst h; exact lt_irrefl _ huw
          · exact hwl' h
        have h2 := H2 w hbw hwl
        cases hq : strLt (variantStr s w) (variantStr s u) with
        | false => rfl
        | true =>
          have := strLt_trans hq hc
          rw [h2] at this
          exact absurd this (by simp)
      · exact fun v hv => hpw.1 v hv
      · exact hpw.2
    · simp only [Bool.not_eq_true] at hc
      have step : pickStep s b u = b := by simp [pickStep, hc]
      rw [step]
      apply pickFold_spec s l' b
      · exact H1
      · intro w hbw hwl'
        by_cases hwu : w = u
        · subst hwu; exact hc
        · refine H2 w hbw ?_
          intro hmem
          rcases List.mem_cons.mp hmem with h | h
          · exact hwu h
          · exact hwl' h
      · exact fun v hv => H3 v (List.mem_cons_of_mem u hv)
      · exact hpw.2

theorem pickIdx_spec (s : BoardState) :
    (∀ w, w < pickIdx s → strLt (variantStr s (pickIdx s)) (variantStr s w) = true) ∧
    (∀ w, pickIdx s < w → strLt (variantStr s w) (variantStr s (pickIdx s)) = false) := by
  have hmem : ∀ w : Fin 8, 0 < w → w ∈ ([1, 2, 3, 4, 5, 6, 7] : List (Fin 8)) := by decide
  apply pickFold_spec s
  · intro w hw
    exact absurd hw (by simp [Fin.lt_def])
  · intro w h0 hm
    exact absurd (hmem w h0) hm
  · decide
  · decide

theorem pickIdx_le (s : BoardState) (u : Fin 8) :
    strLt (variantStr s u) (variantStr s (pickIdx s)) = false := by
  rcases lt_trichotomy u (pickIdx s) with h | h | h
  · cases hq : strLt (variantStr s u) (variantStr s (pickIdx s)) with
    | false => rfl
    | true =>
      have := strLt_trans ((pickIdx_spec s).1 u h) hq
      rw [strLt_irrefl] at this
      exact absurd this (by simp)
  · subst h; exact strLt_irrefl _
  · exact (pickIdx_spec s).2 u h

end MenaceGo

namespace MenaceGo

/-- The 8 permutations compose within the table: applying entry `t` and
then entry `u` under `applyTransform` equals applying the single entry
`mulIdx t u` (finite check over all 8 × 8 × 9 cases). -/
theorem transformations_comp (t u : Fin 8) (i : Fin 9) :
    Transformations (mulIdx t u) i = Transformations t (Transformations u i) := by
  revert t u i; decide

/-- For fixed `t`, every table entry is reached by `mulIdx t ·`
(right multiplication in the symmetry group is surjective). -/
theorem mulIdx_surjective (t w : Fin 8) : ∃ u, mulIdx t u = w := by
  revert t w; decide

/-- A variant of a transformed board is a variant of the original board. -/
theorem variantStr_applyTransform (s : BoardState) (t u : Fin 8) :
    variantStr (applyTransform s (Transformations t)) u = variantStr s (mulIdx t u) := by
  unfold variantStr stateList applyTransform
  apply List.map_congr_left
  intro i _
  rw [transformations_comp]

/-- C3.  For every valid board, `Normalize` returns the state produced by
the transformation at its returned index, that state is lexicographically
least among the 8 variants, and any transformation producing the same
least state has an index no smaller than the returned one (earliest-index
tie-break; the returned index is thereby determined by the board). -/
theorem normalize_min_and_earliest (s : BoardState) (_hs : ValidState s) :
    (Normalize s).1 = variantStr s (Normalize s).2 ∧
    (∀ u : Fin 8, strLt (variantStr s u) (Normalize s).1 = false) ∧
    (∀ u : Fin 8, variantStr s u = (Normalize s).1 → (Normalize s).2 ≤ u) := by
  refine ⟨rfl, fun u => pickIdx_le s u, fun u heq => ?_⟩
  by_contra hnle
  have hu : u < pickIdx s := lt_of_not_le hnle
  have := (pickIdx_spec s).1 u hu
  rw [show (Normalize s).1 = variantStr s (pickIdx s) from rfl] at heq
  rw [heq, strLt_irrefl] at this
  exact absurd this (by simp)

/-- Witness for C3: the empty board is valid; all 8 variants tie, and the
returned index is the earliest (index 0, the identity). -/
theorem normalize_min_and_earliest_witness :
    ValidState (ofList ['_', '_', '_', '_', '_', '_', '_', '_', '_']) ∧
    ((Normalize (ofList ['_', '_', '_', '_', '_', '_', '_', '_', '_'])).2 = 0 ∧
      ∀ u : Fin 8,
        strLt (variantStr (ofList ['_', '_', '_', '_', '_', '_', '_', '_', '_']) u)
          (Normalize (ofList ['_', '_', '_', '_', '_', '_', '_', '_', '_'])).1 = false) :=
  ⟨by decide,
    by decide,
    (normalize_min_and_earliest (ofList ['_', '_', '_', '_', '_', '_', '_', '_', '_'])
      (by decide)).2.1⟩

/-- C4.  For every valid board and every transformation index `t`, the
canonical state of the board transformed by table entry `t` equals the
canonical state of the board itself. -/
theorem normalize_symmetry_invariant (s : BoardState) (_hs : ValidState s) (t : Fin 8) :
    (Normalize (applyTransform s (Transformations t))).1 = (Normalize s).1 := by
  apply strLt_eq_of_not
  · rw [show (Normalize (applyTransform s (Transformations t))).1
        = variantStr s (mulIdx t (pickIdx (applyTransform s (Transformations t)))) from
      variantStr_applyTransform s t _]
    exact pickIdx_le s _
  · obtain ⟨u, hu⟩ := mulIdx_surjective t (pickIdx s)
    rw [show (Normalize s).1 = variantStr (applyTransform s (Transformations t)) u from by
      rw [variantStr_applyTransform, hu]; rfl]
    exact pickIdx_le (applyTransform s (Transformations t)) u

/-- Witness for C4: the concrete board `"__X______"` and the 90°-rotation
entry. -/
theorem normalize_symmetry_invariant_witness :
    ValidState bC1 ∧
    (Normalize (applyTransform bC1 (Transformations 1))).1 = (Normalize bC1).1 :=
  ⟨by decide, normalize_symmetry_invariant bC1 (by decide) 1⟩

/-- C5.  `InverseTransformPosition` undoes `TransformPosition` for every
position 0–8 and every transformation index 0–7. -/
theorem inverse_transform_position_round_trip (p : Fin 9) (t : Fin 8) :
    InverseTransformPosition (((TransformPosition p t : Fin 9) : Nat) : Int) t
      = ((p : Nat) : Int) := by
  revert p t; decide

end MenaceGo

namespace MenaceGo

/-- C1 (failing evaluation).  On the board `"__X______"` — X's first move at
cell 2 — `Normalize` selects transformation index 3 with canonical state
`"X________"`.  The matchbox that `GetMove` creates for that canonical
state receives the bead keys `TransformPosition(p, 3)` for the 8 empty
cells `p`, namely `{2,5,1,4,7,0,3,6} = {0,…,7}`, whereas the moves legal in
the canonical state are its empty positions `{1,…,8}`: the bead domain
contains the occupied cell 0 and misses the legal cell 8, so the claimed
invariant fails on the code. -/
theorem getMove_matchbox_domain_mismatch :
    ((GetMove (NewMenace Player.X) bC1 0).1.matchboxes.lookup (Normalize bC1).1).map
        (fun mb => mb.beads.map Prod.fst)
      = some [2, 5, 1, 4, 7, 0, 3, 6] ∧
    emptiesOfString (Normalize bC1).1 = [1, 2, 3, 4, 5, 6, 7, 8] ∧
    ([2, 5, 1, 4, 7, 0, 3, 6] : List Int).toFinset
      ≠ ([1, 2, 3, 4, 5, 6, 7, 8] : List Int).toFinset := by
  refine ⟨by decide, by decide, by decide⟩

/-- C2 (failing evaluation).  `DrawBead` iterates over the Go map
`m.Beads`, whose iteration order is randomized per run and is not part of
the consumed random draws.  The two matchboxes hold the identical bead
map (equal `lookup` at every key, equal state, equal usage counter) and
consume the identical draw `rand.Intn = 0`, yet one run returns move 0
and the other move 1: the move sequence is not determined by the initial
matchbox state and the draw sequence alone. -/
theorem drawBead_depends_on_map_iteration_order :
    (∀ k : Int, mbOrderA.beads.lookup k = mbOrderB.beads.lookup k) ∧
    mbOrderA.boardState = mbOrderB.boardState ∧
    mbOrderA.timesUsed = mbOrderB.timesUsed ∧
    DrawBead mbOrderA 0 = 0 ∧ DrawBead mbOrderB 0 = 1 := by
  refine ⟨?_, rfl, rfl, by decide, by decide⟩
  intro k
  simp only [mbOrderA, mbOrderB, List.lookup]
  by_cases h0 : k = 0
  · subst h0; rfl
  · by_cases h1 : k = 1
    · subst h1; rfl
    · rw [show (k == (0 : Int)) = false from beq_eq_false_iff_ne.mpr h0,
          show (k == (1 : Int)) = false from beq_eq_false_iff_ne.mpr h1]

end MenaceGo

namespace MenaceGo

theorem lookup_none_keys {β : Type} {l : List (Int × β)} {pos : Int}
    (h : l.lookup pos = none) : ∀ kv ∈ l, kv.1 ≠ pos := by
  induction l with
  | nil => intro kv hmem; exact absurd hmem (List.not_mem_nil kv)
  | cons e rest ih =>
    intro kv hmem
    rw [List.lookup] at h
    rcases hpk : (pos == e.1) with _ | _
    · rw [show (pos == e.1) = (pos == e.fst) from rfl] at h
      rw [hpk] at h
      rcases List.mem_cons.mp hmem with hkv | hkv
      · subst hkv
        exact fun hcontra => (beq_eq_false_iff_ne.mp hpk) hcontra.symm
      · exact ih h kv hkv
    · rw [show (pos == e.1) = (pos == e.fst) from rfl] at h
      rw [hpk] at h
      exact absurd h (by simp)

/-- C10.  `AddBeads` and `RemoveBeads` at a position absent from the bead
map leave the matchbox completely unchanged. -/
theorem beads_noop_outside_domain (mb : Matchbox) (pos count minBeads : Int)
    (h : mb.beads.lookup pos = none) :
    AddBeads mb pos count = mb ∧ RemoveBeads mb pos count minBeads = mb := by
  have hkeys := lookup_none_keys h
  constructor
  · unfold AddBeads
    have hmap : mb.beads.map (fun kv => if kv.1 = pos then (kv.1, kv.2 + count) else kv)
        = mb.beads := by
      calc mb.beads.map (fun kv => if kv.1 = pos then (kv.1, kv.2 + count) else kv)
          = mb.beads.map id := List.map_congr_left (fun kv hmem => by
            simp [if_neg (hkeys kv hmem)])
        _ = mb.beads := List.map_id _
    rw [hmap]
  · unfold RemoveBeads
    have hmap : mb.beads.map (fun kv => if kv.1 = pos then
          (kv.1, if kv.2 - count < minBeads then minBeads else kv.2 - count) else kv)
        = mb.beads := by
      calc mb.beads.map (fun kv => if kv.1 = pos then
              (kv.1, if kv.2 - count < minBeads then minBeads else kv.2 - count) else kv)
          = mb.beads.map id := List.map_congr_left (fun kv hmem => by
            simp [if_neg (hkeys kv hmem)])
        _ = mb.beads := List.map_id _
    rw [hmap]

/-- Witness for C10: position 7 is not a key of a matchbox created for
moves `{0, 1}`, and both operations leave it untouched. -/
theorem beads_noop_outside_domain_witness :
    (NewMatchbox ['X'] [0, 1] 3).beads.lookup 7 = none ∧
    (AddBeads (NewMatchbox ['X'] [0, 1] 3) 7 5 = NewMatchbox ['X'] [0, 1] 3 ∧
      RemoveBeads (NewMatchbox ['X'] [0, 1] 3) 7 5 1 = NewMatchbox ['X'] [0, 1] 3) :=
  ⟨by decide, beads_noop_outside_domain (NewMatchbox ['X'] [0, 1] 3) 7 5 1 (by decide)⟩

theorem applyBeadOp_floor {minBeads : Int} {mb : Matchbox} {op : BeadOp}
    (hop : 0 ≤ op.count)
    (hinv : ∀ kv ∈ mb.beads, minBeads ≤ kv.2) :
    ∀ kv ∈ (applyBeadOp minBeads mb op).beads, minBeads ≤ kv.2 := by
  cases op with
  | add pos c =>
    intro kv hmem
    unfold applyBeadOp AddBeads at hmem
    simp only [List.mem_map] at hmem
    obtain ⟨kv0, hkv0, heq⟩ := hmem
    by_cases hk : kv0.1 = pos
    · rw [if_pos hk] at heq
      rw [← heq]
      have hc : (0 : Int) ≤ c := hop
      have := hinv kv0 hkv0
      omega
    · rw [if_neg hk] at heq
      rw [← heq]
      exact hinv kv0 hkv0
  | remove pos c =>
    intro kv hmem
    unfold applyBeadOp RemoveBeads at hmem
    simp only [List.mem_map] at hmem
    obtain ⟨kv0, hkv0, heq⟩ := hmem
    by_cases hk : kv0.1 = pos
    · rw [if_pos hk] at heq
      rw [← heq]
      by_cases hcl : kv0.2 - c < minBeads
      · simp only [if_pos hcl]
        exact le_refl _
      · simp only [if_neg hcl]
        omega
    · rw [if_neg hk] at heq
      rw [← heq]
      exact hinv kv0 hkv0

theorem applyBeadOps_floor {minBeads : Int} :
    ∀ (ops : List BeadOp) (mb : Matchbox),
      (∀ op ∈ ops, 0 ≤ op.count) →
      (∀ kv ∈ mb.beads, minBeads ≤ kv.2) →
      ∀ kv ∈ (applyBeadOps minBeads mb ops).beads, minBeads ≤ kv.2
  | [], _, _, hinv => hinv
  | op :: rest, mb, hops, hinv =>
    applyBeadOps_floor rest (applyBeadOp minBeads mb op)
      (fun o ho => hops o (List.mem_cons_of_mem _ ho))
      (applyBeadOp_floor (hops op (List.mem_cons_self _ _)) hinv)

/-- C6.  A matchbox created with an initial bead count at least the
configured floor (the defaults are `InitialBeads = 3`, `MinBeads = 1`)
keeps every listed move's bead count at or above the floor after any
sequence of non-negative `AddBeads`/`RemoveBeads` deltas — at every
intermediate point, since the statement covers every prefix length `n`. -/
theorem matchbox_floor_invariant (state : List Char) (validMoves : List Int)
    (initialBeads minBeads : Int) (ops : List BeadOp) (n : Nat)
    (hinit : minBeads ≤ initialBeads)
    (hops : ∀ op ∈ ops, 0 ≤ op.count) :
    ((applyBeadOps minBeads (NewMatchbox state validMoves initialBeads) (ops.take n)).beads.all
      (fun kv => decide (minBeads ≤ kv.2))) = true := by
  rw [List.all_eq_true]
  intro kv hmem
  rw [decide_eq_true_eq]
  refine applyBeadOps_floor (ops.take n) _
    (fun o ho => hops o (List.take_subset n ops ho)) ?_ kv hmem
  intro kv0 h0
  unfold NewMatchbox at h0
  simp only [List.mem_map] at h0
  obtain ⟨p, _, heq⟩ := h0
  rw [← heq]
  exact hinit

/-- Witness for C6: floor 1, initial beads 3, a reward followed by an
oversized penalty; every bead count stays at or above 1. -/
theorem matchbox_floor_invariant_witness :
    (1 : Int) ≤ 3 ∧
    ((applyBeadOps 1 (NewMatchbox ['X'] [4] 3)
        (([BeadOp.add 4 3, BeadOp.remove 4 99]).take 2)).beads.all
      (fun kv => decide ((1 : Int) ≤ kv.2))) = true :=
  ⟨by decide,
    matchbox_floor_invariant ['X'] [4] 3 1 [BeadOp.add 4 3, BeadOp.remove 4 99] 2
      (by decide) (by decide)⟩

end MenaceGo

namespace MenaceGo

/-! ## Association-list update lemmas -/

theorem lookup_map_update {α β : Type} [BEq α] [LawfulBEq α] [DecidableEq α]
    (l : List (α × β)) (key : α) (f : β → β) :
    (l.map (fun kv => if kv.1 = key then (kv.1, f kv.2) else kv)).lookup key
      = (l.lookup key).map f := by
  induction l with
  | nil => rfl
  | cons e rest ih =>
    obtain ⟨k, v⟩ := e
    rw [List.map_cons]
    by_cases hk : k = key
    · subst hk
      rw [show (if ((k, v) : α × β).1 = k then (((k, v) : α × β).1, f ((k, v) : α × β).2)
            else ((k, v) : α × β)) = ((k, f v) : α × β) from if_pos rfl]
      rw [List.lookup, List.lookup, beq_self_eq_true]
      rfl
    · rw [show (if ((k, v) : α × β).1 = key then (((k, v) : α × β).1, f ((k, v) : α × β).2)
            else ((k, v) : α × β)) = ((k, v) : α × β) from if_neg hk]
      rw [List.lookup, List.lookup,
        beq_eq_false_iff_ne.mpr (fun hc => hk hc.symm)]
      exact ih

theorem lookup_isSome_map_fst_preserved {α β : Type} [BEq α] (l : List (α × β))
    (g : α × β → α × β) (hg : ∀ kv, (g kv).1 = kv.1) (key : α) :
    ((l.map g).lookup key).isSome = (l.lookup key).isSome := by
  induction l with
  | nil => rfl
  | cons e rest ih =>
    rw [List.map_cons]
    cases hge : g e with
    | mk gk gv =>
      cases e with
      | mk k v =>
        have hk : gk = k := by
          have := hg (k, v)
          rw [hge] at this
          exact this
        subst hk
        rw [List.lookup, List.lookup]
        cases (key == gk) <;> simp [ih]

theorem lookup_updateMatchbox (boxes : List (List Char × Matchbox)) (s : List Char)
    (f : Matchbox → Matchbox) :
    (updateMatchbox boxes s f).lookup s = (boxes.lookup s).map f :=
  lookup_map_update boxes s f

/-! ## Field-preservation of the snapshot recorder -/

theorem recordHistorySnapshot_matchboxes (m : Menace) :
    (recordHistorySnapshot m).matchboxes = m.matchboxes := by
  unfold recordHistorySnapshot; split <;> rfl

theorem recordHistorySnapshot_winReward (m : Menace) :
    (recordHistorySnapshot m).winReward = m.winReward := by
  unfold recordHistorySnapshot; split <;> rfl

theorem recordHistorySnapshot_gamesPlayed (m : Menace) :
    (recordHistorySnapshot m).gamesPlayed = m.gamesPlayed := by
  unfold recordHistorySnapshot; split <;> rfl

theorem recordHistorySnapshot_wins (m : Menace) :
    (recordHistorySnapshot m).wins = m.wins := by
  unfold recordHistorySnapshot; split <;> rfl

theorem recordHistorySnapshot_losses (m : Menace) :
    (recordHistorySnapshot m).losses = m.losses := by
  unfold recordHistorySnapshot; split <;> rfl

theorem recordHistorySnapshot_draws (m : Menace) :
    (recordHistorySnapshot m).draws = m.draws := by
  unfold recordHistorySnapshot; split <;> rfl

theorem recordHistorySnapshot_moveHistory (m : Menace) :
    (recordHistorySnapshot m).moveHistory = m.moveHistory := by
  unfold recordHistorySnapshot; split <;> rfl

/-! ## One winning episode adds exactly the win reward -/

theorem episodeWin_winReward (s : List Char) (mv : Int) (t : Fin 8) (m : Menace) :
    (episodeWin s mv t m).winReward = m.winReward := by
  unfold episodeWin Learn
  rw [recordHistorySnapshot_winReward]

theorem episodeWin_step (m : Menace) (s : List Char) (mv : Int) (t : Fin 8) (b : Int)
    (h : beadCount m s mv = some b) :
    beadCount (episodeWin s mv t m) s mv = some (b + m.winReward) := by
  obtain ⟨mb, hmb, hbead⟩ : ∃ mb, m.matchboxes.lookup s = some mb ∧
      mb.beads.lookup mv = some b := by
    unfold beadCount at h
    cases hm : m.matchboxes.lookup s with
    | none => rw [hm] at h; simp at h
    | some mb0 => rw [hm] at h; simp at h; exact ⟨mb0, rfl, h⟩
  unfold beadCount episodeWin Learn
  rw [recordHistorySnapshot_matchboxes]
  simp only [List.foldl_cons, List.foldl_nil]
  unfold applyTraced
  simp only [hmb]
  rw [lookup_updateMatchbox, hmb]
  show (mb.beads.map (fun kv =>
      if kv.1 = mv then (kv.1, kv.2 + m.winReward) else kv)).lookup mv
    = some (b + m.winReward)
  rw [lookup_map_update mb.beads mv (fun v => v + m.winReward), hbead]
  rfl

theorem episodeWin_iterate_winReward (s : List Char) (mv : Int) (t : Fin 8) (m : Menace) :
    ∀ N : Nat, ((episodeWin s mv t)^[N] m).winReward = m.winReward := by
  intro N
  induction N with
  | zero => rfl
  | succ k ih =>
    rw [Function.iterate_succ_apply', episodeWin_winReward]
    exact ih

/-- C8.  If move `mv` of the matchbox for state `s` holds `b0` beads, then
after `N` winning episodes each crediting exactly the pair (`s`, `mv`)
once, it holds `b0 + N * WinReward` beads. -/
theorem reinforcement_linear_growth (m : Menace) (s : List Char) (mv : Int)
    (t : Fin 8) (b0 : Int) (N : Nat)
    (h : beadCount m s mv = some b0) :
    beadCount ((episodeWin s mv t)^[N] m) s mv = some (b0 + N * m.winReward) := by
  induction N with
  | zero =>
    rw [Function.iterate_zero_apply, h]
    norm_num
  | succ k ih =>
    rw [Function.iterate_succ_apply']
    have hstep := episodeWin_step ((episodeWin s mv t)^[k] m) s mv t _ ih
    rw [episodeWin_iterate_winReward] at hstep
    rw [hstep]
    congr 1
    push_cast
    ring

/-- Witness for C8: a fresh matchbox with `b0 = 3` beads on move 4; after
2 winning episodes the count is `3 + 2·3 = 9`. -/
theorem reinforcement_linear_growth_witness :
    beadCount mW stW 4 = some 3 ∧
    beadCount ((episodeWin stW 4 0)^[2] mW) stW 4 = some (3 + (2 : Nat) * mW.winReward) :=
  ⟨by decide, reinforcement_linear_growth mW stW 4 0 3 2 (by decide)⟩

end MenaceGo

namespace MenaceGo

theorem applyTraced_lookup_isSome (result : GameResult) (wr dr lp minB : Int)
    (boxes : List (List Char × Matchbox)) (mv : MoveRecord) (s : List Char) :
    ((applyTraced result wr dr lp minB boxes mv).lookup s).isSome
      = (boxes.lookup s).isSome := by
  unfold applyTraced
  cases h : boxes.lookup mv.boardState with
  | none => rfl
  | some mb =>
    unfold updateMatchbox
    exact lookup_isSome_map_fst_preserved boxes _
      (fun kv => by by_cases hk : kv.1 = mv.boardState <;> simp [hk]) s

theorem foldl_applyTraced_filter (result : GameResult) (wr dr lp minB : Int) :
    ∀ (h : List MoveRecord) (boxes : List (List Char × Matchbox)),
      h.foldl (applyTraced result wr dr lp minB) boxes
        = (h.filter (fun mv => (boxes.lookup mv.boardState).isSome)).foldl
            (applyTraced result wr dr lp minB) boxes
  | [], _ => rfl
  | mv :: rest, boxes => by
    rw [List.foldl_cons, List.filter_cons]
    cases hl : boxes.lookup mv.boardState with
    | none =>
      have hskip : applyTraced result wr dr lp minB boxes mv = boxes := by
        unfold applyTraced
        rw [hl]
      simp only [Option.isSome_none, Bool.false_eq_true, if_false]
      rw [hskip]
      exact foldl_applyTraced_filter result wr dr lp minB rest boxes
    | some mb =>
      simp only [Option.isSome_some, if_true]
      rw [List.foldl_cons]
      rw [foldl_applyTraced_filter result wr dr lp minB rest
        (applyTraced result wr dr lp minB boxes mv)]
      congr 1
      apply List.filter_congr
      intro x _
      rw [applyTraced_lookup_isSome]

/-- C9.  `Learn` increments the game counter and exactly the counter of
the given result once, clears the move history, and updates the
matchboxes exactly as if the traced entries whose matchbox is missing had
been dropped from the trace: each missing entry is skipped while every
remaining entry still receives its reward or penalty. -/
theorem learn_skips_missing_counts_once (m : Menace) (result : GameResult) :
    (Learn result m).gamesPlayed = m.gamesPlayed + 1 ∧
    (Learn result m).wins = (if result = .win then m.wins + 1 else m.wins) ∧
    (Learn result m).losses = (if result = .loss then m.losses + 1 else m.losses) ∧
    (Learn result m).draws = (if result = .draw then m.draws + 1 else m.draws) ∧
    (Learn result m).moveHistory = [] ∧
    (Learn result m).matchboxes
      = (m.moveHistory.filter (fun mv => (m.matchboxes.lookup mv.boardState).isSome)).foldl
          (applyTraced result m.winReward m.drawReward m.lossPenalty m.minBeads)
          m.matchboxes := by
  refine ⟨?_, ?_, ?_, ?_, ?_, ?_⟩
  · unfold Learn
    rw [recordHistorySnapshot_gamesPlayed]
  · unfold Learn
    rw [recordHistorySnapshot_wins]
  · unfold Learn
    rw [recordHistorySnapshot_losses]
  · unfold Learn
    rw [recordHistorySnapshot_draws]
  · unfold Learn
    rw [recordHistorySnapshot_moveHistory]
  · unfold Learn
    rw [recordHistorySnapshot_matchboxes]
    exact foldl_applyTraced_filter result m.winReward m.drawReward m.lossPenalty
      m.minBeads m.moveHistory m.matchboxes

end MenaceGo

namespace MenaceGo

/-- C7 (counterexample).  A mutating move operation on a finished session
does not fail with an error: `Game.OpponentMove` on the finished session
`gFinished` returns a `nil` error (it silently ignores the move, leaving
the session unchanged), so "every subsequent mutating move operation on
it fails with an error" is false at the `Game` operations the claim
names. -/
theorem opponentMove_after_finish_returns_no_error :
    gFinished.IsOver = true ∧ OpponentMove gFinished 5 = (gFinished, none) := by
  refine ⟨by decide, ?_⟩
  unfold OpponentMove
  simp [show gFinished.IsOver = true from by decide]

/-- C7 (amended).  Once a session is finished: the HTTP move handler
rejects every further submission with an error and leaves the agent
(statistics and beads) and the session untouched, while the session-level
`OpponentMove` is an error-free no-op; and learning runs exactly once —
the submission that finishes the game triggers exactly one `Learn`, and
any later submission, hitting the handler's finished-session rejection,
triggers none. -/
theorem finished_session_noop_and_exactly_once_learn
    (st st2 : Menace × Game) (g g1 : Game) (pos pos2 : Int) (r r2 : Nat) :
    (st.2.IsOver = true →
      handlerMakeMove st pos r = (st, some "Game is already over")) ∧
    (g.IsOver = true → OpponentMove g pos = (g, none)) ∧
    (st2.2.IsOver = false → st2.2.IsOpponentTurn = true →
      st2.2.GetValidMoves.contains pos2 = true →
      OpponentMove st2.2 pos2 = (g1, none) → g1.IsOver = true →
      handlerMakeMove st2 pos2 r2 = ((Learn g1.GetResult st2.1, g1), none)) := by
  refine ⟨?_, ?_, ?_⟩
  · intro h
    unfold handlerMakeMove
    simp [h]
  · intro h
    unfold OpponentMove
    simp [h]
  · intro hO hT hV hOM hG
    unfold handlerMakeMove
    simp [hO, hT, hV, hOM, hG, FinishGame]
    simpa using hV

/-- Witness for the amended C7: a finished session (X completed the top
row) rejects a further move at the handler with an unchanged state and is
silently ignored by `Game.OpponentMove`; and on a near-terminal session
the opponent's winning move at cell 2 triggers exactly one `Learn`. -/
theorem finished_session_noop_and_exactly_once_learn_witness :
    gFinished.IsOver = true ∧
    gNearEnd.IsOver = false ∧
    handlerMakeMove (NewMenace Player.O, gFinished) 5 0
      = ((NewMenace Player.O, gFinished), some "Game is already over") ∧
    OpponentMove gFinished 5 = (gFinished, none) ∧
    handlerMakeMove (NewMenace Player.O, gNearEnd) 2 0
      = ((Learn (OpponentMove gNearEnd 2).1.GetResult (NewMenace Player.O),
          (OpponentMove gNearEnd 2).1), none) := by
  have hparts := finished_session_noop_and_exactly_once_learn
    (NewMenace Player.O, gFinished) (NewMenace Player.O, gNearEnd)
    gFinished (OpponentMove gNearEnd 2).1 5 2 0 0
  have hOM : OpponentMove gNearEnd 2 = ((OpponentMove gNearEnd 2).1, none) := by
    have h2 : (OpponentMove gNearEnd 2).2 = none := by decide
    exact Prod.ext rfl h2
  refine ⟨by decide, by decide, hparts.1 (by decide), hparts.2.1 (by decide),
    hparts.2.2 (by decide) (by decide) (by decide) hOM (by decide)⟩

end MenaceGo
